import Mathlib

/-!
# ieee0824/bench: the benchmark core, embedded and verified

Shallow embedding of `api/api.go` (round-robin URL ring of a request) and of
`client/main.go` (elastic semaphore, status classification, the worker loop
with its result record, worker-count normalisation and the final statistics
of `BenchMarker`).

Conventions of the embedding.
* Go run-time panics are values of `Fault`; a function that can panic returns
  `Except Fault _`.
* Go `int` is taken as the 64-bit signed integer of the usual targets, `int32`
  as the 32-bit one. Arithmetic that the code performs on them wraps
  (`wrapInt`, `wrapInt32`); comparisons are comparisons of integers.
* `time.Duration` is an `int64` count of nanoseconds and is an `Int` here; the
  code modelled only compares durations and divides one.
* A `chan struct{}` carries no data, so a channel is its length and capacity.
* The HTTP exchange is the environment: a completed attempt is the packet
  received, the measured latency and either a transport error or a status code.
-/

namespace Bench

/-! ## Faults -/

/-- Run-time panics of the Go program that the embedding makes explicit. -/
inductive Fault where
  /-- Slice index out of range. -/
  | indexOutOfRange
  /-- Field access through a nil pointer. -/
  | nilDereference
  /-- Integer division by zero. -/
  | divideByZero
  /-- The explicit panic of NewElasticSemaphore: initial should be <= limit. -/
  | initialAboveLimit
  /-- Panic of make(chan T, n) for a negative n. -/
  | makechanSizeOutOfRange
  deriving DecidableEq, Repr

/-! ## Machine integers -/

/-- Two-complement wrap of an integer into the signed range of `w` bits. -/
def wrapSigned (w : Nat) (x : Int) : Int :=
  (x + 2 ^ (w - 1)) % 2 ^ w - 2 ^ (w - 1)

/-- Go `int` arithmetic result (64-bit target). -/
def wrapInt (x : Int) : Int := wrapSigned 64 x

/-- Go `int32` arithmetic result, also the conversion `int32(x)`. -/
def wrapInt32 (x : Int) : Int := wrapSigned 32 x

/-! ## api/api.go -/

/-- The struct `ring` of api.go: cursor `p` and the URL slice `buffer`. -/
structure ring where
  p : Int
  buffer : List String
  deriving DecidableEq, Repr

/-- The struct `Request` of api.go; the pointer field `ring` is nil (`none`)
until the first call of `URL`. -/
structure Request where
  Time : Int
  URLs : List String
  Token : String
  WorkerNum : Int
  ring : Option ring
  deriving DecidableEq, Repr

/-- The function `ringNew`: `&ring{0, s}`. It has no failing path. -/
def ringNew (s : List String) : ring := ⟨0, s⟩

/-- The method `(*ring).get`: reset the cursor when it is at or past the end,
read `buffer[p]` (a panic when the index is out of range), then `p++`.
The increment is on a cursor below `len(buffer)`, so it cannot overflow. -/
def ring.get (r : ring) : Except Fault (String × ring) :=
  let p := if r.p ≥ r.buffer.length then 0 else r.p
  if p < 0 then .error .indexOutOfRange
  else
    match r.buffer[p.toNat]? with
    | none => .error .indexOutOfRange
    | some ret => .ok (ret, { r with p := p + 1 })

/-- The method `(*Request).setURLs`: `r.ring = ringNew(r.URLs)`. -/
def Request.setURLs (r : Request) : Request :=
  { r with ring := some (ringNew r.URLs) }

/-- The method `(*Request).URL`: build the ring on first use, then `get`. -/
def Request.URL (r : Request) : Except Fault (String × Request) :=
  let r1 := if r.ring.isNone then r.setURLs else r
  match r1.ring with
  | none => .error .nilDereference
  | some g =>
    match g.get with
    | .error e => .error e
    | .ok (u, g1) => .ok (u, { r1 with ring := some g1 })

/-- The first `n` consecutive calls of `req.URL()` (one per dispatcher tick),
with the URLs returned in call order and the request as the calls leave it. -/
def Request.callURL : Nat → Request → Except Fault (List String × Request)
  | 0, r => .ok ([], r)
  | n + 1, r =>
    match r.URL with
    | .error e => .error e
    | .ok (u, r1) =>
      match Request.callURL n r1 with
      | .error e => .error e
      | .ok (us, r2) => .ok (u :: us, r2)

/-- A request as the JSON decoder leaves it: the ring pointer is nil. -/
def Request.fresh (time : Int) (urls : List String) (token : String) (workerNum : Int) :
    Request :=
  { Time := time, URLs := urls, Token := token, WorkerNum := workerNum, ring := none }

/-! ## client/main.go: elastic semaphore -/

/-- The constant `maxConnsInitial`. -/
def maxConnsInitial : Int := 5

/-- The constant `maxConnsLimit`. -/
def maxConnsLimit : Int := 2048

/-- A buffered `chan struct{}`: the number of values it holds and its capacity. -/
structure Chan where
  len : Nat
  cap : Nat
  deriving DecidableEq, Repr

/-- The call `make(chan struct{}, limit)`: an empty channel, a panic for a negative size. -/
def Chan.make (limit : Int) : Except Fault Chan :=
  if limit < 0 then .error .makechanSizeOutOfRange else .ok ⟨0, limit.toNat⟩

/-- A send that is ready: there is room in the buffer. `none` when the send would block. -/
def Chan.trySend (c : Chan) : Option Chan :=
  if c.len < c.cap then some { c with len := c.len + 1 } else none

/-- A receive that is ready: the buffer holds a value. `none` when the receive would block. -/
def Chan.tryRecv (c : Chan) : Option Chan :=
  if 0 < c.len then some { c with len := c.len - 1 } else none

/-- The struct `ElasticSemaphore`: the permit channel `sem` and the `int32` counter `max`. -/
structure ElasticSemaphore where
  sem : Chan
  max : Int
  deriving DecidableEq, Repr

/-- The loop `for i := 0; i < initial; i++ { s <- struct{}{} }` run for `n` rounds.
Its send is blocking and nothing receives while the constructor runs, so a
send into a full channel never returns; with the guard `initial <= limit`
in front of the loop that case is not reached, and the channel is left as it is. -/
def fillSem : Nat → Chan → Chan
  | 0, c => c
  | n + 1, c =>
    match c.trySend with
    | some c1 => fillSem n c1
    | none => c

/-- The function `NewElasticSemaphore(initial, limit)`. -/
def NewElasticSemaphore (initial limit : Int) : Except Fault ElasticSemaphore :=
  if initial > limit then .error .initialAboveLimit
  else
    match Chan.make limit with
    | .error e => .error e
    | .ok s => .ok { sem := fillSem initial.toNat s, max := wrapInt32 initial }

/-- The method `Acquire`, for a semaphore used by one goroutine: the receive
case of the select is taken when the channel holds a permit; otherwise nothing
can fill the channel during the wait, the timer case fires and `max` is
incremented (`atomic.AddInt32`, which wraps). -/
def ElasticSemaphore.Acquire (t : ElasticSemaphore) : ElasticSemaphore :=
  match t.sem.tryRecv with
  | some c => { t with sem := c }
  | none => { t with max := wrapInt32 (t.max + 1) }

/-- The method `Release`: the send case when the channel has room, otherwise the
default case decrements `max` (`atomic.AddInt32`, which wraps). -/
def ElasticSemaphore.Release (t : ElasticSemaphore) : ElasticSemaphore :=
  match t.sem.trySend with
  | some c => { t with sem := c }
  | none => { t with max := wrapInt32 (t.max - 1) }

/-- The method `MaxConns`. -/
def ElasticSemaphore.MaxConns (t : ElasticSemaphore) : Int := t.max

/-- A call on a semaphore. -/
inductive SemOp where
  | acquire
  | release
  deriving DecidableEq, Repr

/-- One call applied to a semaphore. -/
def ElasticSemaphore.apply (t : ElasticSemaphore) : SemOp → ElasticSemaphore
  | .acquire => t.Acquire
  | .release => t.Release

/-- A finite sequence of calls applied in order. -/
def ElasticSemaphore.run (t : ElasticSemaphore) (ops : List SemOp) : ElasticSemaphore :=
  ops.foldl ElasticSemaphore.apply t

/-- Number of permits that the calls of `ops` take out of the channel of `t`
(the Acquire calls that end in the receive case). -/
def permitsTaken : ElasticSemaphore → List SemOp → Nat
  | _, [] => 0
  | t, .acquire :: ops =>
    (if t.sem.tryRecv.isSome then 1 else 0) + permitsTaken t.Acquire ops
  | t, .release :: ops => permitsTaken t.Release ops

/-- Number of permits that the calls of `ops` put back into the channel of `t`
(the Release calls that end in the send case). -/
def permitsReturned : ElasticSemaphore → List SemOp → Nat
  | _, [] => 0
  | t, .acquire :: ops => permitsReturned t.Acquire ops
  | t, .release :: ops =>
    (if t.sem.trySend.isSome then 1 else 0) + permitsReturned t.Release ops

/-! ## client/main.go: classification and the worker -/

/-- The function `checkStatusCode`: Go integer division truncates toward zero. -/
def checkStatusCode (n : Int) : Bool :=
  let d := Int.tdiv n 100
  d == 2 || d == 3

/-- The struct `BenchResult` of api.go. Its field `RequestCountPerSec float64`
is never written or read through the result buffer and is left out. -/
structure BenchResult where
  SuccessCount : Int
  FailCount : Int
  MaxRespTime : Int
  MinRespTime : Int
  RespTimeAVG : Int
  TotalRespTime : Int
  deriving DecidableEq, Repr

/-- The composite literal `&api.BenchResult{}`: every field is zero. -/
def BenchResult.zero : BenchResult := ⟨0, 0, 0, 0, 0, 0⟩

/-- The global `resultBuffer`, a map from token to result; `none` is an absent key. -/
abbrev ResultBuffer := String → Option BenchResult

/-- The initial value `map[string]*api.BenchResult{}`. -/
def ResultBuffer.empty : ResultBuffer := fun _ => none

/-- The struct `benchPacket`. -/
structure benchPacket where
  token : String
  url : String
  deriving DecidableEq, Repr

/-- What `client.Get` returned: a non-nil `err`, or a response with its `StatusCode`. -/
inductive GetResult where
  | err
  | resp (StatusCode : Int)
  deriving DecidableEq, Repr

/-- One completed attempt of a worker: the packet received from the queue, the
measured latency `end` in nanoseconds and the result of the GET. -/
structure Attempt where
  req : benchPacket
  end_ : Int
  get : GetResult
  deriving DecidableEq, Repr

/-- The attempt is counted as a success: `err == nil` and `checkStatusCode`. -/
def Attempt.isSuccess (a : Attempt) : Bool :=
  match a.get with
  | .err => false
  | .resp code => checkStatusCode code

/-- Lines 87-95 of `warker`: create the entry when the key is absent, then
update `MaxRespTime` and `MinRespTime`. Returns the entry as updated. -/
def observe (rb : ResultBuffer) (a : Attempt) : BenchResult :=
  let r0 := match rb a.req.token with
    | some r => r
    | none => BenchResult.zero
  let r1 := if r0.MaxRespTime < a.end_ then { r0 with MaxRespTime := a.end_ } else r0
  if r1.MinRespTime > a.end_ ∨ r1.MinRespTime = 0 then { r1 with MinRespTime := a.end_ } else r1

/-- Lines 97-110 of `warker`, the counters: `SuccessCount++` or `FailCount++`. -/
def count (r : BenchResult) (a : Attempt) : BenchResult :=
  match a.get with
  | .err => { r with FailCount := wrapInt (r.FailCount + 1) }
  | .resp code =>
    if checkStatusCode code then { r with SuccessCount := wrapInt (r.SuccessCount + 1) }
    else { r with FailCount := wrapInt (r.FailCount + 1) }

/-- The record update of one attempt on the result buffer (lines 87-110 without
the semaphore). -/
def record (rb : ResultBuffer) (a : Attempt) : ResultBuffer :=
  Function.update rb a.req.token (some (count (observe rb a) a))

/-- The loop of `warker` for one worker with its semaphore `sem`, run on the
attempts it completes, in order, until it finds the queue closed and empty:
every round is `sem.Acquire()`, the receive, the record update and one
`sem.Release()` (each of the three branches calls it once); the last round is
`sem.Acquire()` and the return on `!ok`. -/
def warker (sem : ElasticSemaphore) (rb : ResultBuffer) :
    List Attempt → ElasticSemaphore × ResultBuffer
  | [] => (sem.Acquire, rb)
  | a :: q => warker sem.Acquire.Release (record rb a) q

/-- The attempt has no transport error and a status code in 200..399 (the
success condition in the words of the specification). -/
def Attempt.inSuccessRange (a : Attempt) : Bool :=
  match a.get with
  | .err => false
  | .resp code => decide (200 ≤ code ∧ code ≤ 399)

/-- The record update as it acts on the entry of the attempt's own token:
`o` is the entry before (`none` when the key is absent). -/
def entryStep (o : Option BenchResult) (a : Attempt) : BenchResult :=
  count (observe (fun _ => o) a) a

/-- The semaphore of every worker as `main` builds it:
`NewElasticSemaphore(maxConnsInitial, maxConnsLimit)`. -/
def mainSem : ElasticSemaphore := ⟨⟨5, 2048⟩, 5⟩

/-- An attempt of run `t` with the given latency and status code. -/
def attemptOf (t : String) (latency status : Int) : Attempt :=
  ⟨⟨t, "http://a"⟩, latency, .resp status⟩

/-! ## client/main.go: main and BenchMarker -/

/-- The per-worker `http.Client` built by `main`: the two settings it is given. -/
structure Client where
  Timeout : Int
  MaxIdleConnsPerHost : Int
  deriving DecidableEq, Repr

/-- The table `clients` as `main` builds it: one client per index below `WARKER_NUM`. -/
def mainClients (WARKER_NUM : Int) : List Client :=
  List.replicate WARKER_NUM.toNat ⟨10 * 1000000000, maxConnsLimit⟩

/-- The table `sems` as `main` builds it: one
`NewElasticSemaphore(maxConnsInitial, maxConnsLimit)` per index below `WARKER_NUM`. -/
def mainSems (WARKER_NUM : Int) : Except Fault (List ElasticSemaphore) :=
  match WARKER_NUM.toNat, NewElasticSemaphore maxConnsInitial maxConnsLimit with
  | 0, _ => .ok []
  | _ + 1, .error e => .error e
  | n + 1, .ok s => .ok (List.replicate (n + 1) s)

/-- Lines 134-138 of `BenchMarker`: the worker count after normalisation. -/
def BenchMarker.workerNum (WorkerNum WARKER_NUM : Int) : Int :=
  if WorkerNum > WARKER_NUM then WARKER_NUM
  else if WorkerNum = 0 then WARKER_NUM
  else WorkerNum

/-- Lines 145-148 of `BenchMarker`: the indices `i` of the workers started by
`for i := 0; i < req.WorkerNum; i++`. -/
def BenchMarker.started (WorkerNum : Int) : List Nat :=
  List.range WorkerNum.toNat

/-- The values `BenchMarker` reads and derives after the workers are done
(the float `RequestCountPerSec` is left out). -/
structure Summary where
  SuccessCount : Int
  FailCount : Int
  RespTimeAVG : Int
  TotalRespTime : Int
  MaxRespTime : Int
  MinRespTime : Int
  deriving DecidableEq, Repr

/-- Lines 161-183 of `BenchMarker`: read the counters through
`resultBuffer[req.Token]` (a nil pointer when the key is absent) and divide the
elapsed time by `successCounter+failerCounter` (a panic when that is zero). -/
def BenchMarker.stats (rb : ResultBuffer) (token : String) (totalRespTime : Int) :
    Except Fault Summary :=
  match rb token with
  | none => .error .nilDereference
  | some r =>
    let successCounter := r.SuccessCount
    let failerCounter := r.FailCount
    let n := wrapInt (successCounter + failerCounter)
    if n = 0 then .error .divideByZero
    else
      .ok { SuccessCount := successCounter
            FailCount := failerCounter
            RespTimeAVG := wrapInt (Int.tdiv totalRespTime n)
            TotalRespTime := totalRespTime
            MaxRespTime := r.MaxRespTime
            MinRespTime := r.MinRespTime }

/-! # Theorems -/

/-! ## Machine-integer facts -/

theorem wrapInt_of_range (x : Int) (h1 : -2 ^ 63 ≤ x) (h2 : x < 2 ^ 63) : wrapInt x = x := by
  unfold wrapInt wrapSigned
  norm_num at h1 h2 ⊢
  omega

theorem wrapInt32_of_range (x : Int) (h1 : -2 ^ 31 ≤ x) (h2 : x < 2 ^ 31) :
    wrapInt32 x = x := by
  unfold wrapInt32 wrapSigned
  norm_num at h1 h2 ⊢
  omega

/-! ## The ring -/

theorem ring_get_of_le (buf : List String) (m : Nat) (hm : m ≤ buf.length)
    (hL : 0 < buf.length) :
    ring.get ⟨(m : Int), buf⟩ =
      .ok (buf.getD (m % buf.length) "", ⟨((m % buf.length : Nat) : Int) + 1, buf⟩) := by
  have hlt : m % buf.length < buf.length := Nat.mod_lt _ hL
  rcases Nat.lt_or_ge m buf.length with h | h
  · have hmod : m % buf.length = m := Nat.mod_eq_of_lt h
    have hp : ¬ ((m : Int) ≥ (buf.length : Int)) := by omega
    simp only [ring.get, hp, if_false, hmod]
    have hneg : ¬ ((m : Int) < 0) := by omega
    simp only [hneg, if_false, Int.toNat_ofNat]
    rw [List.getElem?_eq_getElem h, List.getD_eq_getElem _ _ h]
  · have hml : m = buf.length := le_antisymm hm h
    have hmod : m % buf.length = 0 := by rw [hml]; exact Nat.mod_self _
    have hp : (m : Int) ≥ (buf.length : Int) := by omega
    simp only [ring.get, hp, if_true, hmod]
    simp only [lt_self_iff_false, if_false, Int.toNat_zero]
    rw [List.getElem?_eq_getElem hL, List.getD_eq_getElem _ _ hL]
    rfl

theorem URL_of_ring (r : Request) (buf : List String) (m : Nat)
    (hr : r.ring = some ⟨(m : Int), buf⟩) (hm : m ≤ buf.length) (hL : 0 < buf.length) :
    r.URL = .ok (buf.getD (m % buf.length) "",
      { r with ring := some ⟨((m % buf.length : Nat) : Int) + 1, buf⟩ }) := by
  simp only [Request.URL, hr, Option.isNone_some, Bool.false_eq_true, if_false,
    ring_get_of_le buf m hm hL]

theorem URL_of_nil (r : Request) (hr : r.ring = none) : r.URL = r.setURLs.URL := by
  simp [Request.URL, hr, Request.setURLs]

/-- After `n` calls on a request whose ring has a cursor `m` within the buffer, the
outputs are the buffer read cyclically from `m`, and the cursor is again within
the buffer and congruent to `m + n`. -/
theorem callURL_of_ring (n : Nat) : ∀ (r : Request) (buf : List String) (m : Nat),
    r.ring = some ⟨(m : Int), buf⟩ → m ≤ buf.length → 0 < buf.length →
    ∃ (r1 : Request) (m1 : Nat),
      r.callURL n = .ok ((List.range n).map (fun i => buf.getD ((m + i) % buf.length) ""), r1)
      ∧ r1.ring = some ⟨(m1 : Int), buf⟩ ∧ m1 ≤ buf.length
      ∧ m1 % buf.length = (m + n) % buf.length
      ∧ r1.URLs = r.URLs := by
  induction n with
  | zero =>
    intro r buf m hr hm _
    exact ⟨r, m, by simp [Request.callURL], hr, hm, by simp, rfl⟩
  | succ n ih =>
    intro r buf m hr hm hL
    have hlt : m % buf.length < buf.length := Nat.mod_lt _ hL
    obtain ⟨r1, m1, h1, h2, h3, h4, h5⟩ :=
      ih { r with ring := some ⟨((m % buf.length : Nat) : Int) + 1, buf⟩ } buf
        (m % buf.length + 1) (by simp) (by omega) hL
    refine ⟨r1, m1, ?_, h2, h3, ?_, h5⟩
    · simp only [Request.callURL, URL_of_ring r buf m hr hm hL, h1,
        List.range_succ_eq_map, List.map_cons, List.map_map, Nat.add_zero]
      congr 3
      apply List.map_congr_left
      intro i _
      simp only [Function.comp, Nat.succ_eq_add_one]
      congr 1
      rw [Nat.add_assoc, Nat.mod_add_mod, Nat.add_comm 1 i]
    · rw [h4, Nat.add_assoc, Nat.mod_add_mod]
      congr 1
      omega

theorem callURL_succ_of_nil (n : Nat) (r : Request) (hr : r.ring = none) :
    r.callURL (n + 1) = r.setURLs.callURL (n + 1) := by
  simp only [Request.callURL, URL_of_nil r hr]

/-- The outputs and the next output of a fresh request with a non-empty list. -/
theorem callURL_fresh (r : Request) (hr : r.ring = none) (hL : 0 < r.URLs.length) (n : Nat) :
    ∃ (r1 r2 : Request),
      r.callURL n = .ok ((List.range n).map (fun i => r.URLs.getD (i % r.URLs.length) ""), r1)
      ∧ r1.URL = .ok (r.URLs.getD (n % r.URLs.length) "", r2) := by
  have hs : r.setURLs.ring = some ⟨((0 : Nat) : Int), r.URLs⟩ := rfl
  cases n with
  | zero =>
    exact ⟨r, _, by simp [Request.callURL],
      by rw [URL_of_nil r hr, URL_of_ring r.setURLs r.URLs 0 hs (Nat.zero_le _) hL]⟩
  | succ n =>
    obtain ⟨r1, m1, h1, h2, h3, h4, _⟩ :=
      callURL_of_ring (n + 1) r.setURLs r.URLs 0 hs (Nat.zero_le _) hL
    have hu := URL_of_ring r1 r.URLs m1 h2 h3 hL
    rw [h4, Nat.zero_add] at hu
    refine ⟨r1, _, ?_, hu⟩
    rw [callURL_succ_of_nil n r hr, h1]
    simp [Request.setURLs]

/-- Claim C1. On a fresh request with a non-empty URL list of length L, for every
k the (k+1)-th call of `URL` succeeds and returns `urls[k mod L]`: the first n
calls return the list read cyclically, the call that follows k calls returns
`urls[k mod L]`, the first L calls return the list itself, in order, and the
(L+1)-th call returns the first URL again. -/
theorem C1_round_robin (r : Request) (hr : r.ring = none) (hne : r.URLs ≠ []) :
    (∀ n : Nat, ∃ r1 : Request,
        r.callURL n = .ok ((List.range n).map (fun k =>
          r.URLs.get ⟨k % r.URLs.length, Nat.mod_lt k (List.length_pos.mpr hne)⟩), r1))
    ∧ (∀ k : Nat, ∃ (us : List String) (r1 r2 : Request),
        r.callURL k = .ok (us, r1)
        ∧ r1.URL = .ok (r.URLs.get ⟨k % r.URLs.length,
            Nat.mod_lt k (List.length_pos.mpr hne)⟩, r2))
    ∧ (∃ (r1 r2 : Request), r.callURL r.URLs.length = .ok (r.URLs, r1)
        ∧ r1.URL = .ok (r.URLs.get ⟨0, List.length_pos.mpr hne⟩, r2)) := by
  have hL : 0 < r.URLs.length := List.length_pos.mpr hne
  have hget : ∀ k : Nat, r.URLs.getD (k % r.URLs.length) "" =
      r.URLs.get ⟨k % r.URLs.length, Nat.mod_lt k hL⟩ := by
    intro k
    rw [List.getD_eq_getElem _ _ (Nat.mod_lt k hL), List.get_eq_getElem]
  refine ⟨?_, ?_, ?_⟩
  · intro n
    obtain ⟨r1, _, h1, _⟩ := callURL_fresh r hr hL n
    refine ⟨r1, ?_⟩
    rw [h1]
    congr 2
    exact List.map_congr_left (fun k _ => hget k)
  · intro k
    obtain ⟨r1, r2, h1, h2⟩ := callURL_fresh r hr hL k
    exact ⟨_, r1, r2, h1, by rw [h2, hget k]⟩
  · obtain ⟨r1, r2, h1, h2⟩ := callURL_fresh r hr hL r.URLs.length
    refine ⟨r1, r2, ?_, ?_⟩
    · rw [h1]
      congr 2
      apply List.ext_getElem
      · simp
      · intro n h₁ h₂
        simp only [List.getElem_map, List.getElem_range]
        rw [Nat.mod_eq_of_lt h₂, List.getD_eq_getElem _ _ h₂]
    · rw [h2, hget]
      simp [Nat.mod_self]

/-- Scenario A of C1: the URLs a, b yield a, b, a, b, a. -/
theorem C1_round_robin_witness :
    (Request.fresh 1 ["http://a", "http://b"] "t" 1).ring = none
    ∧ (Request.fresh 1 ["http://a", "http://b"] "t" 1).URLs ≠ []
    ∧ ∃ r1 : Request, (Request.fresh 1 ["http://a", "http://b"] "t" 1).callURL 5 =
        .ok (["http://a", "http://b", "http://a", "http://b", "http://a"], r1) :=
  ⟨rfl, by decide,
    (C1_round_robin (Request.fresh 1 ["http://a", "http://b"] "t" 1) rfl (by decide)).1 5⟩

/-! ## Status classification -/

theorem checkStatusCode_iff (n : Int) : checkStatusCode n = true ↔ 200 ≤ n ∧ n ≤ 399 := by
  simp only [checkStatusCode, Bool.or_eq_true, beq_iff_eq]
  rcases Int.lt_or_le n 0 with h | h
  · have h1 : Int.tdiv n 100 = -(Int.tdiv (-n) 100) := by
      rw [Int.neg_tdiv, neg_neg]
    have h2 : Int.tdiv (-n) 100 = (-n) / 100 := by
      rw [Int.tdiv_eq_ediv] <;> omega
    rw [h1, h2]
    omega
  · have h2 : Int.tdiv n 100 = n / 100 := by
      rw [Int.tdiv_eq_ediv] <;> omega
    rw [h2]
    omega

/-- Claim C2. For every integer status code, negative and out-of-range values
included, `checkStatusCode` is true exactly when the code lies in 200..399;
every other code is classified as failure. -/
theorem C2_checkStatusCode (n : Int) :
    (checkStatusCode n = true ↔ 200 ≤ n ∧ n ≤ 399)
    ∧ (¬ (200 ≤ n ∧ n ≤ 399) → checkStatusCode n = false) := by
  refine ⟨checkStatusCode_iff n, fun h => ?_⟩
  cases hc : checkStatusCode n with
  | false => rfl
  | true => exact absurd ((checkStatusCode_iff n).mp hc) h

/-! ## The worker and its record -/

theorem isSuccess_eq_inSuccessRange (a : Attempt) : a.isSuccess = a.inSuccessRange := by
  unfold Attempt.isSuccess Attempt.inSuccessRange
  cases a.get with
  | err => rfl
  | resp code =>
    simp only
    rcases h : checkStatusCode code with _ | _
    · symm
      rw [decide_eq_false_iff_not, ← checkStatusCode_iff, h]
      simp
    · symm
      rw [decide_eq_true_iff, ← checkStatusCode_iff, h]

theorem warker_snd (q : List Attempt) : ∀ (sem : ElasticSemaphore) (rb : ResultBuffer),
    (warker sem rb q).2 = q.foldl record rb := by
  induction q with
  | nil => intro sem rb; rfl
  | cons a q ih => intro sem rb; simp only [warker, List.foldl_cons]; exact ih _ _

theorem warker_fst (q : List Attempt) : ∀ (sem : ElasticSemaphore) (rb : ResultBuffer),
    (warker sem rb q).1 = (q.foldl (fun s _ => s.Acquire.Release) sem).Acquire := by
  induction q with
  | nil => intro sem rb; rfl
  | cons a q ih => intro sem rb; simp only [warker, List.foldl_cons]; exact ih _ _

theorem record_same (rb : ResultBuffer) (a : Attempt) (t : String) (h : a.req.token = t) :
    record rb a t = some (entryStep (rb t) a) := by
  subst h
  simp [record, entryStep, observe]

theorem foldl_record_same (t : String) (q : List Attempt) :
    ∀ (rb : ResultBuffer), (∀ a ∈ q, a.req.token = t) →
      (q.foldl record rb) t = q.foldl (fun o a => some (entryStep o a)) (rb t) := by
  induction q with
  | nil => intro rb _; rfl
  | cons a q ih =>
    intro rb h
    simp only [List.foldl_cons]
    rw [ih _ (fun b hb => h b (List.mem_cons_of_mem _ hb)),
      record_same rb a t (h a (List.mem_cons_self _ _))]

theorem foldl_entry_cons (a : Attempt) (q : List Attempt) (o : Option BenchResult) :
    (a :: q).foldl (fun o a => some (entryStep o a)) o =
      q.foldl (fun o a => some (entryStep o a)) (some (entryStep o a)) := rfl

theorem entryStep_counts (o : Option BenchResult) (a : Attempt) :
    (entryStep o a).SuccessCount =
        wrapInt ((o.getD BenchResult.zero).SuccessCount + 1) ∧
      (entryStep o a).FailCount = (o.getD BenchResult.zero).FailCount ∧ a.isSuccess = true
    ∨ (entryStep o a).SuccessCount = (o.getD BenchResult.zero).SuccessCount ∧
      (entryStep o a).FailCount = wrapInt ((o.getD BenchResult.zero).FailCount + 1) ∧
      a.isSuccess = false := by
  unfold entryStep count observe Attempt.isSuccess
  cases o <;> cases a.get <;> simp only [Option.getD] <;> split_ifs <;> simp_all

/-- Counting from an existing entry, as long as neither counter leaves the range of `int`. -/
theorem foldl_entry_counts (q : List Attempt) : ∀ (r : BenchResult),
    0 ≤ r.SuccessCount → 0 ≤ r.FailCount →
    r.SuccessCount + r.FailCount + q.length < 2 ^ 63 →
    ∃ r1, q.foldl (fun o a => some (entryStep o a)) (some r) = some r1
      ∧ r1.SuccessCount = r.SuccessCount + q.countP Attempt.isSuccess
      ∧ r1.FailCount = r.FailCount + q.countP (fun a => !a.isSuccess) := by
  induction q with
  | nil => intro r _ _ _; exact ⟨r, rfl, by simp, by simp⟩
  | cons a q ih =>
    intro r hs hf hlen
    simp only [List.length_cons, Nat.cast_add, Nat.cast_one] at hlen
    have hq : (0 : Int) ≤ q.length := Int.ofNat_nonneg _
    rcases entryStep_counts (some r) a with ⟨h1, h2, h3⟩ | ⟨h1, h2, h3⟩
    · simp only [Option.getD] at h1 h2
      rw [wrapInt_of_range _ (by norm_num; omega) (by omega)] at h1
      obtain ⟨r1, e1, e2, e3⟩ := ih (entryStep (some r) a) (by omega) (by omega) (by omega)
      refine ⟨r1, by rw [foldl_entry_cons, e1], ?_, ?_⟩
      · rw [e2, h1, List.countP_cons, h3]; simp; omega
      · rw [e3, h2, List.countP_cons, h3]; simp
    · simp only [Option.getD] at h1 h2
      rw [wrapInt_of_range _ (by norm_num; omega) (by omega)] at h2
      obtain ⟨r1, e1, e2, e3⟩ := ih (entryStep (some r) a) (by omega) (by omega) (by omega)
      refine ⟨r1, by rw [foldl_entry_cons, e1], ?_, ?_⟩
      · rw [e2, h1, List.countP_cons, h3]; simp
      · rw [e3, h2, List.countP_cons, h3]; simp; omega

theorem countP_add_countP_not (q : List Attempt) :
    q.countP Attempt.isSuccess + q.countP (fun a => !a.isSuccess) = q.length := by
  induction q with
  | nil => rfl
  | cons a q ih =>
    simp only [List.countP_cons, List.length_cons]
    cases a.isSuccess <;> simp <;> omega

/-- Counting from no entry. -/
theorem foldl_entry_counts_none (q : List Attempt) (hne : q ≠ [])
    (hlen : (q.length : Int) < 2 ^ 63) :
    ∃ r1, q.foldl (fun o a => some (entryStep o a)) none = some r1
      ∧ r1.SuccessCount = q.countP Attempt.isSuccess
      ∧ r1.FailCount = q.countP (fun a => !a.isSuccess) := by
  cases q with
  | nil => exact absurd rfl hne
  | cons a q =>
    simp only [List.length_cons, Nat.cast_add, Nat.cast_one] at hlen
    have hq : (0 : Int) ≤ q.length := Int.ofNat_nonneg _
    rcases entryStep_counts none a with ⟨h1, h2, h3⟩ | ⟨h1, h2, h3⟩
    · simp only [Option.getD, BenchResult.zero] at h1 h2
      rw [wrapInt_of_range _ (by norm_num) (by norm_num)] at h1
      obtain ⟨r1, e1, e2, e3⟩ := foldl_entry_counts q (entryStep none a)
        (by omega) (by omega) (by omega)
      refine ⟨r1, by rw [foldl_entry_cons, e1], ?_, ?_⟩
      · rw [e2, h1, List.countP_cons, h3]; simp; omega
      · rw [e3, h2, List.countP_cons, h3]; simp
    · simp only [Option.getD, BenchResult.zero] at h1 h2
      rw [wrapInt_of_range _ (by norm_num) (by norm_num)] at h2
      obtain ⟨r1, e1, e2, e3⟩ := foldl_entry_counts q (entryStep none a)
        (by omega) (by omega) (by omega)
      refine ⟨r1, by rw [foldl_entry_cons, e1], ?_, ?_⟩
      · rw [e2, h1, List.countP_cons, h3]; simp
      · rw [e3, h2, List.countP_cons, h3]; simp; omega

/-- Claim C3. For a worker with any semaphore, a result buffer without entry for
the run `t` and any sequence `q` of completed attempts of that run (fewer than
2^63, the range of the Go `int` counters): an empty sequence leaves the run
without entry; otherwise the entry exists, its SuccessCount is the number of
attempts with no transport error and a status in 200..399, its FailCount is the
number of all other attempts, and their sum is the number of attempts. When
every attempt returned status 503, FailCount is that number and SuccessCount 0. -/
theorem C3_counters (sem : ElasticSemaphore) (rb : ResultBuffer) (t : String)
    (q : List Attempt) (hrb : rb t = none) (ht : ∀ a ∈ q, a.req.token = t)
    (hlen : (q.length : Int) < 2 ^ 63) :
    (q = [] → (warker sem rb q).2 t = none)
    ∧ (q ≠ [] → ∃ r, (warker sem rb q).2 t = some r
        ∧ r.SuccessCount = q.countP Attempt.inSuccessRange
        ∧ r.FailCount = q.countP (fun a => !a.inSuccessRange)
        ∧ r.SuccessCount + r.FailCount = q.length
        ∧ ((∀ a ∈ q, a.get = GetResult.resp 503) →
            r.FailCount = q.length ∧ r.SuccessCount = 0)) := by
  have hfun : Attempt.isSuccess = Attempt.inSuccessRange :=
    funext isSuccess_eq_inSuccessRange
  refine ⟨?_, ?_⟩
  · intro h
    subst h
    simpa [warker] using hrb
  · intro hne
    obtain ⟨r, e1, e2, e3⟩ := foldl_entry_counts_none q hne hlen
    have hsum := countP_add_countP_not q
    refine ⟨r, ?_, ?_, ?_, ?_, ?_⟩
    · rw [warker_snd, foldl_record_same t q rb ht, hrb, e1]
    · rw [e2, hfun]
    · rw [e3, hfun]
    · rw [e2, e3]; exact_mod_cast hsum
    · intro h503
      have hz : q.countP Attempt.isSuccess = 0 := by
        rw [List.countP_eq_zero]
        intro a ha
        have := h503 a ha
        simp [Attempt.isSuccess, this, checkStatusCode]
        decide
      rw [e2, e3, hz]
      refine ⟨?_, by simp⟩
      have : q.countP (fun a => !a.isSuccess) = q.length := by omega
      exact_mod_cast this

/-- The counters of C3 at three attempts with statuses 200, 503 and a transport error. -/
theorem C3_counters_witness :
    ResultBuffer.empty "t" = none
    ∧ (∀ a ∈ [attemptOf "t" 7 200, attemptOf "t" 5 503, ⟨⟨"t", "http://b"⟩, 9, .err⟩],
        a.req.token = "t")
    ∧ (([attemptOf "t" 7 200, attemptOf "t" 5 503,
          (⟨⟨"t", "http://b"⟩, 9, .err⟩ : Attempt)].length : Int) < 2 ^ 63)
    ∧ ∃ r, (warker mainSem ResultBuffer.empty
          [attemptOf "t" 7 200, attemptOf "t" 5 503, ⟨⟨"t", "http://b"⟩, 9, .err⟩]).2 "t"
            = some r
        ∧ r.SuccessCount = 1 ∧ r.FailCount = 2 :=
  ⟨rfl, by decide, by decide,
    let h := (C3_counters mainSem ResultBuffer.empty "t"
      [attemptOf "t" 7 200, attemptOf "t" 5 503, ⟨⟨"t", "http://b"⟩, 9, .err⟩]
      rfl (by decide) (by decide)).2 (by simp)
    ⟨h.choose, h.choose_spec.1, by rw [h.choose_spec.2.1]; decide,
      by rw [h.choose_spec.2.2.1]; decide⟩⟩

theorem entryStep_max (o : Option BenchResult) (a : Attempt) :
    a.end_ ≤ (entryStep o a).MaxRespTime
    ∧ (o.getD BenchResult.zero).MaxRespTime ≤ (entryStep o a).MaxRespTime := by
  unfold entryStep count observe
  cases o <;> cases a.get <;> simp only [Option.getD] <;> split_ifs <;>
    simp_all <;> omega

theorem entryStep_min (o : Option BenchResult) (a : Attempt) :
    (entryStep o a).MinRespTime ≤ a.end_
    ∧ (a.end_ ≠ 0 → (entryStep o a).MinRespTime ≠ 0)
    ∧ (a.end_ ≠ 0 → (o.getD BenchResult.zero).MinRespTime ≠ 0 →
        (entryStep o a).MinRespTime ≤ (o.getD BenchResult.zero).MinRespTime) := by
  unfold entryStep count observe
  cases o <;> cases a.get <;> simp only [Option.getD] <;> split_ifs <;>
    simp_all <;> omega

theorem foldl_entry_isSome (q : List Attempt) (hne : q ≠ []) : ∀ (o : Option BenchResult),
    ∃ r, q.foldl (fun o a => some (entryStep o a)) o = some r := by
  induction q with
  | nil => exact absurd rfl hne
  | cons a q ih =>
    intro o
    cases q with
    | nil => exact ⟨_, rfl⟩
    | cons b q => exact ih (by simp) _

/-- MaxRespTime never decreases and bounds every latency recorded. -/
theorem foldl_entry_max (q : List Attempt) : ∀ (o : Option BenchResult) (r : BenchResult),
    q.foldl (fun o a => some (entryStep o a)) o = some r →
    (o.getD BenchResult.zero).MaxRespTime ≤ r.MaxRespTime
    ∧ ∀ a ∈ q, a.end_ ≤ r.MaxRespTime := by
  induction q with
  | nil =>
    intro o r h
    simp only [List.foldl_nil] at h
    subst h
    exact ⟨le_refl _, by simp⟩
  | cons a q ih =>
    intro o r h
    rw [foldl_entry_cons] at h
    obtain ⟨h1, h2⟩ := ih _ r h
    simp only [Option.getD] at h1
    obtain ⟨m1, m2⟩ := entryStep_max o a
    refine ⟨le_trans m2 h1, ?_⟩
    intro b hb
    rcases List.mem_cons.mp hb with rfl | hb
    · exact le_trans m1 h1
    · exact h2 b hb

/-- From an entry whose MinRespTime is not the sentinel, over latencies that are
not zero, MinRespTime never increases, stays off the sentinel and bounds every
latency recorded. -/
theorem foldl_entry_min_some (q : List Attempt) : ∀ (r0 r : BenchResult),
    r0.MinRespTime ≠ 0 → (∀ a ∈ q, a.end_ ≠ 0) →
    q.foldl (fun o a => some (entryStep o a)) (some r0) = some r →
    r.MinRespTime ≤ r0.MinRespTime ∧ ∀ a ∈ q, r.MinRespTime ≤ a.end_ := by
  induction q with
  | nil =>
    intro r0 r _ _ h
    simp only [List.foldl_nil, Option.some.injEq] at h
    subst h
    exact ⟨le_refl _, by simp⟩
  | cons a q ih =>
    intro r0 r h0 hz h
    rw [foldl_entry_cons] at h
    have ha : a.end_ ≠ 0 := hz a (List.mem_cons_self _ _)
    obtain ⟨m1, m2, m3⟩ := entryStep_min (some r0) a
    obtain ⟨h1, h2⟩ := ih _ r (m2 ha) (fun b hb => hz b (List.mem_cons_of_mem _ hb)) h
    refine ⟨le_trans h1 (m3 ha h0), ?_⟩
    intro b hb
    rcases List.mem_cons.mp hb with rfl | hb
    · exact le_trans h1 m1
    · exact h2 b hb

/-- From any entry, over latencies that are not zero, the final MinRespTime
bounds every latency recorded. -/
theorem foldl_entry_min (q : List Attempt) (o : Option BenchResult) (r : BenchResult)
    (hz : ∀ a ∈ q, a.end_ ≠ 0)
    (h : q.foldl (fun o a => some (entryStep o a)) o = some r) :
    ∀ a ∈ q, r.MinRespTime ≤ a.end_ := by
  cases q with
  | nil => simp
  | cons a q =>
    rw [foldl_entry_cons] at h
    have ha : a.end_ ≠ 0 := hz a (List.mem_cons_self _ _)
    obtain ⟨m1, m2, _⟩ := entryStep_min o a
    obtain ⟨h1, h2⟩ := foldl_entry_min_some q _ r (m2 ha)
      (fun b hb => hz b (List.mem_cons_of_mem _ hb)) h
    intro b hb
    rcases List.mem_cons.mp hb with rfl | hb
    · exact le_trans h1 m1
    · exact h2 b hb

/-- Claim C4, as stated, fails: after the latencies 0 and 5 (both non-negative)
recorded from no entry, MinRespTime is 5, which is above the recorded latency 0. -/
theorem C4_min_counterexample :
    (∀ a ∈ [attemptOf "t" 0 200, attemptOf "t" 5 200], 0 ≤ a.end_)
    ∧ ∃ r, (warker mainSem ResultBuffer.empty
          [attemptOf "t" 0 200, attemptOf "t" 5 200]).2 "t" = some r
        ∧ r.MinRespTime = 5
        ∧ ∃ a ∈ [attemptOf "t" 0 200, attemptOf "t" 5 200], ¬ (r.MinRespTime ≤ a.end_) :=
  ⟨by decide, ⟨2, 0, 5, 5, 0, 0⟩, by decide, rfl, attemptOf "t" 0 200, by simp, by decide⟩

/-- Claim C4, amended. For a worker with any semaphore, a result buffer without
entry for the run `t` and any sequence of completed attempts of that run, split
as `pre ++ post` with no zero latency in `post`: if the sequence is empty the run
still has no entry (and a fresh entry has both extremes at the sentinel 0);
otherwise the entry exists, its MaxRespTime is at least every recorded latency,
and its MinRespTime is at most every latency of `post`, that is, every latency
recorded after the last zero latency. -/
theorem C4_extremes (sem : ElasticSemaphore) (rb : ResultBuffer) (t : String)
    (pre post : List Attempt) (hrb : rb t = none)
    (ht : ∀ a ∈ pre ++ post, a.req.token = t) (hz : ∀ a ∈ post, a.end_ ≠ 0) :
    (pre ++ post = [] → (warker sem rb (pre ++ post)).2 t = none
        ∧ BenchResult.zero.MaxRespTime = 0 ∧ BenchResult.zero.MinRespTime = 0)
    ∧ (pre ++ post ≠ [] → ∃ r, (warker sem rb (pre ++ post)).2 t = some r
        ∧ (∀ a ∈ pre ++ post, a.end_ ≤ r.MaxRespTime)
        ∧ (∀ a ∈ post, r.MinRespTime ≤ a.end_)) := by
  refine ⟨?_, ?_⟩
  · intro h
    rw [h]
    exact ⟨by simpa [warker] using hrb, rfl, rfl⟩
  · intro hne
    obtain ⟨r, hr⟩ := foldl_entry_isSome (pre ++ post) hne none
    refine ⟨r, ?_, ?_, ?_⟩
    · rw [warker_snd, foldl_record_same t _ rb ht, hrb, hr]
    · exact (foldl_entry_max _ none r hr).2
    · rw [List.foldl_append] at hr
      exact foldl_entry_min post _ r hz hr

/-- The amended C4 at the latencies 0, 5, 3: the extremes are 5 and 3. -/
theorem C4_extremes_witness :
    ResultBuffer.empty "t" = none
    ∧ (∀ a ∈ [attemptOf "t" 0 200] ++ [attemptOf "t" 5 200, attemptOf "t" 3 503],
        a.req.token = "t")
    ∧ (∀ a ∈ [attemptOf "t" 5 200, attemptOf "t" 3 503], a.end_ ≠ 0)
    ∧ ∃ r, (warker mainSem ResultBuffer.empty
          ([attemptOf "t" 0 200] ++ [attemptOf "t" 5 200, attemptOf "t" 3 503])).2 "t" = some r
        ∧ (∀ a ∈ [attemptOf "t" 0 200] ++ [attemptOf "t" 5 200, attemptOf "t" 3 503],
            a.end_ ≤ r.MaxRespTime)
        ∧ (∀ a ∈ [attemptOf "t" 5 200, attemptOf "t" 3 503], r.MinRespTime ≤ a.end_) :=
  ⟨rfl, by decide, by decide,
    (C4_extremes mainSem ResultBuffer.empty "t" [attemptOf "t" 0 200]
      [attemptOf "t" 5 200, attemptOf "t" 3 503] rfl (by decide) (by decide)).2 (by simp)⟩

/-! ## The elastic semaphore -/

theorem fillSem_of_room (n : Nat) : ∀ (c : Chan), c.len + n ≤ c.cap →
    fillSem n c = ⟨c.len + n, c.cap⟩ := by
  induction n with
  | zero => intro c _; rfl
  | succ n ih =>
    intro c h
    have hlt : c.len < c.cap := by omega
    simp only [fillSem, Chan.trySend, hlt, if_true]
    rw [ih _ (by simp only; omega)]
    simp only [Chan.mk.injEq, and_true]
    omega

theorem NewElasticSemaphore_ok (I H : Int) (h0 : 0 ≤ I) (h : I ≤ H) :
    NewElasticSemaphore I H = .ok ⟨⟨I.toNat, H.toNat⟩, wrapInt32 I⟩ := by
  have h1 : ¬ (I > H) := by omega
  have h2 : ¬ (H < 0) := by omega
  simp only [NewElasticSemaphore, h1, if_false, Chan.make, h2]
  rw [fillSem_of_room _ _ (by simp only; omega)]
  simp

theorem Acquire_sem (t : ElasticSemaphore) :
    t.Acquire.sem.cap = t.sem.cap ∧ t.Acquire.sem.len ≤ t.sem.len := by
  unfold ElasticSemaphore.Acquire Chan.tryRecv
  split_ifs <;> simp

theorem Release_sem (t : ElasticSemaphore) (h : t.sem.len ≤ t.sem.cap) :
    t.Release.sem.cap = t.sem.cap ∧ t.Release.sem.len ≤ t.sem.cap := by
  unfold ElasticSemaphore.Release Chan.trySend
  split_ifs <;> simp <;> omega

theorem run_cons (t : ElasticSemaphore) (op : SemOp) (ops : List SemOp) :
    t.run (op :: ops) = (t.apply op).run ops := rfl

/-- The channel invariant: capacity fixed, length within the capacity. -/
theorem run_sem (ops : List SemOp) : ∀ (t : ElasticSemaphore), t.sem.len ≤ t.sem.cap →
    (t.run ops).sem.cap = t.sem.cap ∧ (t.run ops).sem.len ≤ t.sem.cap := by
  induction ops with
  | nil => intro t h; exact ⟨rfl, h⟩
  | cons op ops ih =>
    intro t h
    rw [run_cons]
    cases op with
    | acquire =>
      obtain ⟨a1, a2⟩ := Acquire_sem t
      obtain ⟨b1, b2⟩ := ih t.Acquire (by rw [a1]; omega)
      exact ⟨by rw [← a1]; exact b1, by rw [← a1]; exact b2⟩
    | release =>
      obtain ⟨a1, a2⟩ := Release_sem t h
      obtain ⟨b1, b2⟩ := ih t.Release (by rw [a1]; omega)
      exact ⟨by rw [← a1]; exact b1, by rw [← a1]; exact b2⟩

/-- Permit accounting: what was taken and is still in the channel equals what
the channel held at the start and what was put back. -/
theorem permits_account (ops : List SemOp) : ∀ (t : ElasticSemaphore),
    permitsTaken t ops + (t.run ops).sem.len = t.sem.len + permitsReturned t ops := by
  induction ops with
  | nil => intro t; simp [permitsTaken, permitsReturned, ElasticSemaphore.run]
  | cons op ops ih =>
    intro t
    rw [run_cons]
    cases op with
    | acquire =>
      have h := ih t.Acquire
      simp only [permitsTaken, permitsReturned, ElasticSemaphore.apply]
      rcases Nat.eq_zero_or_pos t.sem.len with h0 | h0
      · have e : t.Acquire.sem = t.sem := by
          simp [ElasticSemaphore.Acquire, Chan.tryRecv, h0]
        have e2 : t.sem.tryRecv = none := by simp [Chan.tryRecv, h0]
        rw [e] at h
        simp only [e2, Option.isSome_none, Bool.false_eq_true, if_false]
        omega
      · have e : t.Acquire.sem.len + 1 = t.sem.len := by
          simp only [ElasticSemaphore.Acquire, Chan.tryRecv, h0, if_true]
          omega
        have e2 : t.sem.tryRecv.isSome = true := by simp [Chan.tryRecv, h0]
        simp only [e2, if_true]
        omega
    | release =>
      have h := ih t.Release
      simp only [permitsTaken, permitsReturned, ElasticSemaphore.apply]
      rcases Nat.lt_or_ge t.sem.len t.sem.cap with h0 | h0
      · have e : t.Release.sem.len = t.sem.len + 1 := by
          simp only [ElasticSemaphore.Release, Chan.trySend, h0, if_true]
        have e2 : t.sem.trySend.isSome = true := by simp [Chan.trySend, h0]
        simp only [e2, if_true]
        omega
      · have h1 : ¬ (t.sem.len < t.sem.cap) := by omega
        have e : t.Release.sem = t.sem := by
          simp [ElasticSemaphore.Release, Chan.trySend, h1]
        have e2 : t.sem.trySend = none := by simp [Chan.trySend, h1]
        rw [e] at h
        simp only [e2, Option.isSome_none, Bool.false_eq_true, if_false]
        omega

/-- Claim C5. `NewElasticSemaphore(I, H)` with 0 <= I <= H returns a semaphore
holding I permits in a channel of capacity H, and after every finite sequence of
Acquire and Release calls the channel holds between 0 and H permits, and the
permits taken by Acquire and not put back by Release are at most H. -/
theorem C5_permit_bounds (I H : Int) (h0 : 0 ≤ I) (hIH : I ≤ H) :
    ∃ s, NewElasticSemaphore I H = .ok s
      ∧ (s.sem.len : Int) = I ∧ (s.sem.cap : Int) = H
      ∧ ∀ ops : List SemOp,
          (0 : Int) ≤ (s.run ops).sem.len ∧ ((s.run ops).sem.len : Int) ≤ H
          ∧ (permitsTaken s ops : Int) - permitsReturned s ops ≤ H := by
  refine ⟨_, NewElasticSemaphore_ok I H h0 hIH, ?_, ?_, ?_⟩
  · simp only; omega
  · simp only; omega
  · intro ops
    have hinv := (run_sem ops ⟨⟨I.toNat, H.toNat⟩, wrapInt32 I⟩ (by simp only; omega)).2
    have hacc := permits_account ops ⟨⟨I.toNat, H.toNat⟩, wrapInt32 I⟩
    simp only at hinv hacc
    refine ⟨Int.ofNat_nonneg _, by omega, by omega⟩

/-- C5 at the semaphore of `main` and the calls Acquire, Acquire, Release. -/
theorem C5_permit_bounds_witness :
    (0 : Int) ≤ 5 ∧ (5 : Int) ≤ 2048
    ∧ NewElasticSemaphore 5 2048 = .ok mainSem
    ∧ (mainSem.run [.acquire, .acquire, .release]).sem.len = 4
    ∧ ∃ s, NewElasticSemaphore 5 2048 = .ok s
        ∧ ((s.run [.acquire, .acquire, .release]).sem.len : Int) ≤ 2048 :=
  ⟨by decide, by decide, rfl, by decide,
    let h := C5_permit_bounds 5 2048 (by decide) (by decide)
    ⟨h.choose, h.choose_spec.1,
      (h.choose_spec.2.2.2 [.acquire, .acquire, .release]).2.1⟩⟩

/-- Claim C6. In a state whose counter `max` is inside the `int32` range with
room for one step either way: Acquire adds exactly 1 to MaxConns when the
channel holds no permit and leaves it unchanged when it takes a permit; Release
subtracts exactly 1 when the channel is full and leaves it unchanged when it
puts the permit back. MaxConns starts at the initial permit count (below 2^31),
and for initial 1, limit 5, two Acquire calls leave MaxConns at 2. -/
theorem C6_effective_limit (t : ElasticSemaphore)
    (hlo : -2 ^ 31 < t.max) (hhi : t.max < 2 ^ 31 - 1) :
    (t.sem.len = 0 → t.Acquire.MaxConns = t.MaxConns + 1 ∧ t.Acquire.sem = t.sem)
    ∧ (0 < t.sem.len → t.Acquire.MaxConns = t.MaxConns
        ∧ t.Acquire.sem.len + 1 = t.sem.len)
    ∧ (t.sem.cap ≤ t.sem.len → t.Release.MaxConns = t.MaxConns - 1
        ∧ t.Release.sem = t.sem)
    ∧ (t.sem.len < t.sem.cap → t.Release.MaxConns = t.MaxConns
        ∧ t.Release.sem.len = t.sem.len + 1)
    ∧ (∀ I H : Int, 0 ≤ I → I ≤ H → I < 2 ^ 31 →
        ∃ s, NewElasticSemaphore I H = .ok s ∧ s.MaxConns = I ∧ (s.sem.len : Int) = I)
    ∧ (∃ s, NewElasticSemaphore 1 5 = .ok s ∧ s.Acquire.Acquire.MaxConns = 2) := by
  refine ⟨?_, ?_, ?_, ?_, ?_, ?_⟩
  · intro h
    simp only [ElasticSemaphore.Acquire, Chan.tryRecv, h, lt_self_iff_false, if_false,
      ElasticSemaphore.MaxConns]
    exact ⟨wrapInt32_of_range _ (by omega) (by omega), trivial⟩
  · intro h
    simp only [ElasticSemaphore.Acquire, Chan.tryRecv, h, if_true, ElasticSemaphore.MaxConns]
    exact ⟨trivial, by omega⟩
  · intro h
    have h1 : ¬ (t.sem.len < t.sem.cap) := by omega
    simp only [ElasticSemaphore.Release, Chan.trySend, h1, if_false,
      ElasticSemaphore.MaxConns]
    exact ⟨wrapInt32_of_range _ (by omega) (by omega), trivial⟩
  · intro h
    simp only [ElasticSemaphore.Release, Chan.trySend, h, if_true, ElasticSemaphore.MaxConns]
    exact ⟨trivial, trivial⟩
  · intro I H h0 hIH h31
    refine ⟨_, NewElasticSemaphore_ok I H h0 hIH, ?_, ?_⟩
    · exact wrapInt32_of_range _ (by omega) h31
    · simp only; omega
  · exact ⟨⟨⟨1, 5⟩, 1⟩, rfl, by decide⟩

/-- C6 at the semaphore of `main` after five Acquire calls (channel empty, MaxConns 5):
the next Acquire makes MaxConns 6. -/
theorem C6_effective_limit_witness :
    (-2 ^ 31 : Int) < (ElasticSemaphore.mk ⟨0, 2048⟩ 5).max
    ∧ (ElasticSemaphore.mk ⟨0, 2048⟩ 5).max < 2 ^ 31 - 1
    ∧ (ElasticSemaphore.mk ⟨0, 2048⟩ 5).Acquire.MaxConns = 6 :=
  ⟨by decide, by decide,
    ((C6_effective_limit ⟨⟨0, 2048⟩, 5⟩ (by decide) (by decide)).1 rfl).1⟩

/-- The quantity effectiveLimit minus available permits. -/
theorem diff_Acquire (t : ElasticSemaphore) (hhi : t.max < 2 ^ 31 - 1)
    (hlo : -2 ^ 31 ≤ t.max) :
    t.Acquire.max - t.Acquire.sem.len = t.max - t.sem.len + 1
    ∧ t.max ≤ t.Acquire.max ∧ t.Acquire.max ≤ t.max + 1 := by
  rcases Nat.eq_zero_or_pos t.sem.len with h0 | h0
  · simp only [ElasticSemaphore.Acquire, Chan.tryRecv, h0, lt_self_iff_false, if_false]
    rw [wrapInt32_of_range _ (by omega) (by omega)]
    omega
  · simp only [ElasticSemaphore.Acquire, Chan.tryRecv, h0, if_true]
    omega

theorem diff_Release (t : ElasticSemaphore) (hhi : t.max < 2 ^ 31)
    (hlo : -2 ^ 31 < t.max) :
    t.Release.max - t.Release.sem.len = t.max - t.sem.len - 1
    ∧ t.max - 1 ≤ t.Release.max ∧ t.Release.max ≤ t.max := by
  rcases Nat.lt_or_ge t.sem.len t.sem.cap with h0 | h0
  · simp only [ElasticSemaphore.Release, Chan.trySend, h0, if_true]
    omega
  · have h1 : ¬ (t.sem.len < t.sem.cap) := by omega
    simp only [ElasticSemaphore.Release, Chan.trySend, h1, if_false]
    rw [wrapInt32_of_range _ (by omega) (by omega)]
    omega

theorem diff_round (t : ElasticSemaphore) (hhi : t.max < 2 ^ 31 - 1)
    (hlo : -2 ^ 31 < t.max) :
    t.Acquire.Release.max - t.Acquire.Release.sem.len = t.max - t.sem.len
    ∧ t.max - 1 ≤ t.Acquire.Release.max ∧ t.Acquire.Release.max ≤ t.max + 1 := by
  obtain ⟨a1, a2, a3⟩ := diff_Acquire t hhi (by omega)
  obtain ⟨b1, b2, b3⟩ := diff_Release t.Acquire (by omega) (by omega)
  omega

theorem diff_rounds (q : List Attempt) : ∀ (t : ElasticSemaphore),
    t.max + q.length < 2 ^ 31 - 1 → -2 ^ 31 < t.max - q.length →
    (q.foldl (fun s _ => s.Acquire.Release) t).max
        - (q.foldl (fun s _ => s.Acquire.Release) t).sem.len = t.max - t.sem.len
    ∧ t.max - q.length ≤ (q.foldl (fun s _ => s.Acquire.Release) t).max
    ∧ (q.foldl (fun s _ => s.Acquire.Release) t).max ≤ t.max + q.length := by
  induction q with
  | nil => intro t _ _; simp
  | cons a q ih =>
    intro t hhi hlo
    simp only [List.length_cons, Nat.cast_add, Nat.cast_one] at hhi hlo ⊢
    have hq : (0 : Int) ≤ q.length := Int.ofNat_nonneg _
    obtain ⟨a1, a2, a3⟩ := diff_round t (by omega) (by omega)
    obtain ⟨b1, b2, b3⟩ := ih t.Acquire.Release (by omega) (by omega)
    simp only [List.foldl_cons]
    omega

/-- Claim C10. For a worker whose semaphore counter has room in `int32` for the
run (one step per round either way, and one more step up), processing the
attempts `q` and then finding the queue closed leaves effectiveLimit minus
available permits exactly one above its value before the run; one round
(Acquire, record, Release) leaves that difference unchanged, and the semaphore
after the run is the one after the rounds followed by one Acquire that no
Release follows. -/
theorem C10_permit_drift (sem : ElasticSemaphore) (rb : ResultBuffer) (q : List Attempt)
    (hhi : sem.max + q.length < 2 ^ 31 - 1) (hlo : -2 ^ 31 < sem.max - q.length) :
    ((warker sem rb q).1.max - (warker sem rb q).1.sem.len = sem.max - sem.sem.len + 1)
    ∧ (sem.Acquire.Release.max - sem.Acquire.Release.sem.len = sem.max - sem.sem.len)
    ∧ (warker sem rb q).1 = (q.foldl (fun s _ => s.Acquire.Release) sem).Acquire := by
  have hq : (0 : Int) ≤ q.length := Int.ofNat_nonneg _
  obtain ⟨b1, b2, b3⟩ := diff_rounds q sem hhi hlo
  obtain ⟨a1, _, _⟩ := diff_Acquire (q.foldl (fun s _ => s.Acquire.Release) sem)
    (by omega) (by omega)
  refine ⟨?_, (diff_round sem (by omega) (by omega)).1, warker_fst q sem rb⟩
  rw [warker_fst, a1, b1]

/-- C10 at the semaphore of `main` and two attempts: the difference goes from 0 to 1. -/
theorem C10_permit_drift_witness :
    (mainSem.max + ([attemptOf "t" 7 200, attemptOf "t" 5 503].length : Int) < 2 ^ 31 - 1)
    ∧ (-2 ^ 31 < mainSem.max - ([attemptOf "t" 7 200, attemptOf "t" 5 503].length : Int))
    ∧ mainSem.max - mainSem.sem.len = 0
    ∧ (warker mainSem ResultBuffer.empty [attemptOf "t" 7 200, attemptOf "t" 5 503]).1.max
        - (warker mainSem ResultBuffer.empty
            [attemptOf "t" 7 200, attemptOf "t" 5 503]).1.sem.len = 0 + 1 :=
  ⟨by decide, by decide, by decide,
    (by decide : mainSem.max - (mainSem.sem.len : Int) = 0) ▸
      (C10_permit_drift mainSem ResultBuffer.empty [attemptOf "t" 7 200, attemptOf "t" 5 503]
        (by decide) (by decide)).1⟩

/-! ## BenchMarker -/

/-- Claim C7 at its failing inputs. A run in which no attempt completed leaves no
entry for its token, and the final statistics then fault on the nil entry; an
entry whose two counters are zero makes the division fault. No fallback value
is produced in either case. -/
theorem C7_zero_attempts_fault (sem : ElasticSemaphore) (totalRespTime : Int) :
    BenchMarker.stats (warker sem ResultBuffer.empty []).2 "t" totalRespTime
        = .error .nilDereference
    ∧ BenchMarker.stats (Function.update ResultBuffer.empty "t" (some BenchResult.zero)) "t"
        totalRespTime = .error .divideByZero := by
  refine ⟨rfl, ?_⟩
  simp [BenchMarker.stats, BenchResult.zero, wrapInt, wrapSigned]

/-- Claim C8, as stated, fails: for the empty URL list the construction returns a
ring (cursor 0, empty buffer) and raises nothing, and the first call of `get`,
as of `URL`, faults by indexing the empty list. -/
theorem C8_empty_list_counterexample :
    ringNew [] = ⟨0, []⟩
    ∧ (Request.fresh 10 [] "t" 1).setURLs.ring = some ⟨0, []⟩
    ∧ (ringNew []).get = .error .indexOutOfRange
    ∧ (Request.fresh 10 [] "t" 1).URL = .error .indexOutOfRange :=
  ⟨rfl, rfl, rfl, rfl⟩

/-- Claim C8, amended. Building the selector has no failing path: for every URL
list, the empty one included, `ringNew` returns the ring with cursor 0 over the
list and `setURLs` installs it. On a fresh request with a non-empty list no
call of `URL` faults: any number of consecutive calls succeeds. -/
theorem C8_construction_total (r : Request) (hr : r.ring = none) (hne : r.URLs ≠ []) :
    (∀ s : List String, ringNew s = ⟨0, s⟩)
    ∧ (∀ r0 : Request, r0.setURLs.ring = some ⟨0, r0.URLs⟩ ∧ r0.setURLs.URLs = r0.URLs)
    ∧ (∀ n : Nat, ∃ out, r.callURL n = .ok out) := by
  refine ⟨fun _ => rfl, fun _ => ⟨rfl, rfl⟩, ?_⟩
  intro n
  obtain ⟨r1, _, h1, _⟩ := callURL_fresh r hr (List.length_pos.mpr hne) n
  exact ⟨_, h1⟩

/-- The amended C8 at the list a, b: three calls succeed. -/
theorem C8_construction_total_witness :
    (Request.fresh 10 ["http://a", "http://b"] "t" 1).ring = none
    ∧ (Request.fresh 10 ["http://a", "http://b"] "t" 1).URLs ≠ []
    ∧ ∃ out, (Request.fresh 10 ["http://a", "http://b"] "t" 1).callURL 3 = .ok out :=
  ⟨rfl, by decide,
    (C8_construction_total (Request.fresh 10 ["http://a", "http://b"] "t" 1) rfl
      (by decide)).2.2 3⟩

theorem mainSems_ok (M : Int) :
    ∃ sems, mainSems M = .ok sems ∧ sems.length = M.toNat := by
  have h : NewElasticSemaphore maxConnsInitial maxConnsLimit = .ok mainSem := rfl
  unfold mainSems
  rw [h]
  cases M.toNat with
  | zero => exact ⟨[], rfl, rfl⟩
  | succ n => exact ⟨_, rfl, by simp⟩

/-- Claim C9. For every requested worker count w and configured maximum M >= 1,
the normalised count is M when w > M or w = 0 and w otherwise; it never exceeds
M, and every index of a started worker is below M, the length of the tables
`clients` and `sems` that `main` builds. -/
theorem C9_worker_clamp (w M : Int) (hM : 1 ≤ M) :
    BenchMarker.workerNum w M = (if w > M ∨ w = 0 then M else w)
    ∧ BenchMarker.workerNum w M ≤ M
    ∧ ∀ i ∈ BenchMarker.started (BenchMarker.workerNum w M),
        (i : Int) < M ∧ i < (mainClients M).length
        ∧ ∃ sems, mainSems M = .ok sems ∧ i < sems.length := by
  have hval : BenchMarker.workerNum w M = (if w > M ∨ w = 0 then M else w) := by
    unfold BenchMarker.workerNum
    split_ifs <;> first | rfl | omega
  have hle : BenchMarker.workerNum w M ≤ M := by
    rw [hval]
    split_ifs <;> omega
  refine ⟨hval, hle, ?_⟩
  intro i hi
  simp only [BenchMarker.started, List.mem_range] at hi
  obtain ⟨sems, hs, hlen⟩ := mainSems_ok M
  refine ⟨by omega, ?_, sems, hs, ?_⟩
  · simp only [mainClients, List.length_replicate]
    omega
  · rw [hlen]; omega

/-- C9 with 64 workers requested and a maximum of 8: the count is 8. -/
theorem C9_worker_clamp_witness :
    (1 : Int) ≤ 8 ∧ BenchMarker.workerNum 64 8 = 8 ∧ BenchMarker.workerNum 64 8 ≤ 8 :=
  ⟨by decide, by decide, (C9_worker_clamp 64 8 (by decide)).2.1⟩

end Bench
